import Mathlib

/-!
# Verification of `solve_product_distribution` (mom-calculator)

Shallow embedding of the core solver in `src/my_calculator_app.py`.
Money amounts and prices are modelled as rationals, quantities as integers
(the Python code stores them in plain `int` cells of a list and they can in
fact become negative, see below).  Python floor division `//` and modulo `%`
on integers are `Int.fdiv` / `Int.fmod`.  The `rules` dictionary built by
`{c['idx'] - 1: ... for c in constraints}` keeps, for every category index,
the *last* constraint of the list (later entries overwrite earlier ones);
`lookupRule` reproduces that.  Python's `sorted(..., key=price)` is a stable
sort, reproduced by `List.mergeSort` comparing only the price component.
-/

namespace MomCalc

/-- Kind of a raw constraint: `'=='`, `'>='` or `'<='` in the Python record. -/
inductive CType
  | eq
  | ge
  | le
deriving DecidableEq, Repr

/-- A raw constraint record `{'idx': …, 'type': …, 'value': …}`.
`idx` is 1-based over the known-price categories. -/
structure Constraint where
  idx : ℕ
  ctype : CType
  value : ℤ
deriving DecidableEq, Repr

/-- Convenience constructor for concrete constraint lists. -/
def con (i : ℕ) (t : CType) (v : ℤ) : Constraint := ⟨i, t, v⟩

/-- The dictionary key of a constraint: `c['idx'] - 1`. -/
def ckey (c : Constraint) : ℕ := c.idx - 1

/-- `rules[i]`: the last constraint of the list whose key is `i`
(a Python dict comprehension lets later entries overwrite earlier ones). -/
def lookupRule (cs : List Constraint) (i : ℕ) : Option Constraint :=
  cs.foldl (fun acc c => if ckey c = i then some c else acc) none

/-- Keep the first occurrence of every element not already seen. -/
def firstDedupAux (seen : List ℕ) : List ℕ → List ℕ
  | [] => []
  | a :: l =>
    if a ∈ seen then firstDedupAux seen l
    else a :: firstDedupAux (a :: seen) l

/-- Keep the first occurrence of every element (Python dict key order). -/
def firstDedup (l : List ℕ) : List ℕ := firstDedupAux [] l

/-- The keys of the `rules` dictionary, in insertion order. -/
def ruleKeys (cs : List Constraint) : List ℕ :=
  firstDedup (cs.map ckey)

/-- The `[min_val, max_val]` window computed by the conflict-check loop for
key `i`: seeded from `rules[i]`, then every raw constraint on the same key
raises `min` (when its type starts with `>`) or lowers `max` (type starts
with `<`).  `none` as the second component is `float('inf')`. -/
def mergedWindow (cs : List Constraint) (i : ℕ) : ℤ × Option ℤ :=
  match lookupRule cs i with
  | none => (0, none)
  | some r =>
    let m0 : ℤ := match r.ctype with
      | .ge => r.value
      | .eq => r.value
      | .le => 0
    let M0 : Option ℤ := match r.ctype with
      | .ge => none
      | .eq => some r.value
      | .le => some r.value
    (cs.filter fun c => ckey c = i).foldl
      (fun p c =>
        let m : ℤ := if c.ctype = .ge ∧ p.1 < c.value then c.value else p.1
        let M : Option ℤ :=
          match p.2 with
          | none => if c.ctype = .le then some c.value else none
          | some M => if c.ctype = .le ∧ c.value < M then some c.value else some M
        (m, M))
      (m0, M0)

/-- `min_val > max_val` for key `i`. -/
def windowConflict (cs : List Constraint) (i : ℕ) : Bool :=
  match mergedWindow cs i with
  | (_, none) => false
  | (m, some M) => decide (M < m)

/-- The conflict check of `solve_product_distribution` (`校验1`). -/
def hasConflict (cs : List Constraint) : Bool :=
  (ruleKeys cs).any fun i => windowConflict cs i

/-- `min_sum`: the sum of `rules[i]['value']` over keys whose rule type is
`'>='` or `'=='` (`校验2`). -/
def minSum (cs : List Constraint) : ℤ :=
  ((ruleKeys cs).map fun i =>
    match lookupRule cs i with
    | some r =>
      match r.ctype with
      | .ge => r.value
      | .eq => r.value
      | .le => 0
    | none => 0).sum

/-- Read a quantity cell, `quantities[i]`. -/
def qget (qs : List ℤ) (i : ℕ) : ℤ := qs.getD i 0

/-- `quantities[-1]`, the unknown category's cell. -/
def qlast (qs : List ℤ) : ℤ := qs.getLastD 0

/-- The uniform baseline
`[base+1] * remainder + [base] * (total_products - remainder)`. -/
def baseAlloc (n tq : ℕ) : List ℤ :=
  let base : ℤ := (tq / n : ℕ)
  List.replicate (tq % n) (base + 1) ++ List.replicate (n - tq % n) base

/-- One clamping pass: for every rule key, force `'=='`, raise to `'>='`,
lower to `'<='`. -/
def clampOnce (cs : List Constraint) (qs : List ℤ) : List ℤ :=
  (ruleKeys cs).foldl
    (fun t i =>
      match lookupRule cs i with
      | none => t
      | some r =>
        match r.ctype with
        | .eq => t.set i r.value
        | .ge => if qget t i < r.value then t.set i r.value else t
        | .le => if r.value < qget t i then t.set i r.value else t)
    qs

/-- `unlocked`: indices below `total_products` whose rule is absent or not
`'=='`. -/
def unlockedIdx (n : ℕ) (cs : List Constraint) : List ℕ :=
  (List.range n).filter fun i =>
    match lookupRule cs i with
    | none => true
    | some r => decide (r.ctype ≠ .eq)

/-- Distribute `delta = total_quantity - sum(temp)` over the unlocked
indices: `delta // len` each, then `+1` to the first `delta % len` of them.
Skipped entirely when no index is unlocked (`if unlocked:`). -/
def distribute (n tq : ℕ) (cs : List Constraint) (qs : List ℤ) : List ℤ :=
  let u := unlockedIdx n cs
  if u = [] then qs
  else
    let delta : ℤ := (tq : ℤ) - qs.sum
    let k : ℤ := (u.length : ℕ)
    let addEach : ℤ := Int.fdiv delta k
    let qs1 := u.foldl (fun t i => t.set i (qget t i + addEach)) qs
    let rem : ℕ := (Int.fmod delta k).toNat
    (List.range rem).foldl
      (fun t j => t.set (u.getD j 0) (qget t (u.getD j 0) + 1)) qs1

/-- One round of the bounded fixed-point relaxation. -/
def roundStep (cs : List Constraint) (n tq : ℕ) (qs : List ℤ) : List ℤ :=
  distribute n tq cs (clampOnce cs qs)

/-- `for _ in range(total_products * 2): …`. -/
def relax (cs : List Constraint) (n tq : ℕ) (qs : List ℤ) : List ℤ :=
  (fun t => roundStep cs n tq t)^[2 * n] qs

/-- Stage one: baseline, optional relaxation, then the residual fix-up
`if sum(quantities) != total_quantity: quantities[0] += …`. -/
def allocate (n tq : ℕ) (cs : List Constraint) : List ℤ :=
  let q0 := baseAlloc n tq
  let q1 := if cs = [] then q0 else relax cs n tq q0
  if q1.sum = (tq : ℤ) then q1 else q1.set 0 (qget q1 0 + ((tq : ℤ) - q1.sum))

/-- `[(price, i) for i, price in enumerate(known_prices)]`. -/
def indexPairs (kp : List ℚ) : List (ℚ × ℕ) :=
  (List.range kp.length).map fun i => (kp.getD i 0, i)

/-- Stable insertion of a pair into a price-sorted list: the new pair goes
in front of the first element whose price is not smaller, so an element
inserted earlier in original order stays in front of later equal-price
elements. -/
def insertPair (a : ℚ × ℕ) : List (ℚ × ℕ) → List (ℚ × ℕ)
  | [] => [a]
  | b :: l => if a.1 ≤ b.1 then a :: b :: l else b :: insertPair a l

/-- Stable sort by price (insertion sort; Python's `sorted` with
`key=lambda item: item[0]` is stable, and the result of a stable sort is
unique, so this computes the same list). -/
def sortByPrice : List (ℚ × ℕ) → List (ℚ × ℕ)
  | [] => []
  | a :: l => insertPair a (sortByPrice l)

/-- `priced_items = sorted(…, key=lambda item: item[0])` — a stable sort on
the price component. -/
def pricedItems (kp : List ℚ) : List (ℚ × ℕ) :=
  sortByPrice (indexPairs kp)

/-- `is_valid_swap(qtys, from_idx, to_idx, rules)`. -/
def isValidSwap (cs : List Constraint) (qs : List ℤ) (fi ti : ℕ) : Bool :=
  (match lookupRule cs fi with
   | some r =>
     !(decide (r.ctype = .eq) ||
       (decide (r.ctype = .ge) && decide (qget qs fi - 1 < r.value)))
   | none => true)
  &&
  (match lookupRule cs ti with
   | some r =>
     !(decide (r.ctype = .eq) ||
       (decide (r.ctype = .le) && decide (r.value < qget qs ti + 1)))
   | none => true)

/-- The nested donor/recipient scan with `break` flags: donors `ds` in
order, a donor needs a positive cell, recipients `rs` in order, first pair
that is distinct and passes `is_valid_swap` wins. -/
def scanPairs (cs : List Constraint) (qs : List ℤ) (ds rs : List (ℚ × ℕ)) :
    Option (ℕ × ℕ) :=
  ds.findSome? fun d =>
    if 0 < qget qs d.2 then
      rs.findSome? fun r =>
        if d.2 ≠ r.2 ∧ isValidSwap cs qs d.2 r.2 = true then some (d.2, r.2)
        else none
    else none

/-- `quantities[from] -= 1; quantities[to] += 1`. -/
def applySwap (qs : List ℤ) (d r : ℕ) : List ℤ :=
  let q1 := qs.set d (qget qs d - 1)
  q1.set r (qget q1 r + 1)

/-- `sum(quantities[j] * known_prices[j] for j in range(total_products - 1))`. -/
def knownTotal (n : ℕ) (kp : List ℚ) (qs : List ℤ) : ℚ :=
  ((List.range (n - 1)).map fun j => (qget qs j : ℚ) * kp.getD j 0).sum

/-- `calculated_x = (target_pre_tax_price - known_items_price) / quantities[-1]`. -/
def implied (n : ℕ) (kp : List ℚ) (target : ℚ) (qs : List ℤ) : ℚ :=
  (target - knownTotal n kp qs) / (qlast qs : ℚ)

/-- Python's banker's rounding to an integer (round half to even). -/
def roundHalfEven (x : ℚ) : ℤ :=
  let f : ℤ := ⌊x⌋
  if x - f < 1 / 2 then f
  else if (1 : ℚ) / 2 < x - f then f + 1
  else if f % 2 = 0 then f else f + 1

/-- `round(x, 4)`. -/
def round4 (x : ℚ) : ℚ := (roundHalfEven (x * 10000) : ℚ) / 10000

/-- Result status.  The Python function returns `"错误"` for the three
error exits (distinguished here by the cause, as the spec names them),
`"成功"` (Solved) and `"警告"` (Warning). -/
inductive Status
  | conflictError
  | infeasibleTotalError
  | divisionByZeroError
  | solved
  | warning
deriving DecidableEq, Repr

/-- The returned dictionary: status, optional `counts`, optional
`estimated_price_x`.  Error exits carry neither counts nor a price. -/
structure Report where
  status : Status
  counts : Option (List ℤ)
  price : Option ℚ
deriving DecidableEq, Repr

/-- The warning exit: current quantities together with the freshly
recomputed `final_x`, rounded to four decimals. -/
def warnReport (n : ℕ) (kp : List ℚ) (target : ℚ) (qs : List ℤ) : Report :=
  ⟨.warning, some qs, some (round4 (implied n kp target qs))⟩

/-- Direction choice of one balancing iteration: above the range, donors
ascending / recipients descending; below the range, the mirror scan. -/
def swapChoice (cs : List Constraint) (kp : List ℚ) (qs : List ℤ)
    (x lo hi : ℚ) : Option (ℕ × ℕ) :=
  if hi < x then scanPairs cs qs (pricedItems kp) (pricedItems kp).reverse
  else if x < lo then scanPairs cs qs (pricedItems kp).reverse (pricedItems kp)
  else none

/-- The balancing loop, `for i in range(200)`, with explicit fuel.
Exhausted fuel and a stuck scan both end in the warning exit. -/
def loop (cs : List Constraint) (n : ℕ) (kp : List ℚ) (target lo hi : ℚ) :
    ℕ → List ℤ → Report
  | 0, qs => warnReport n kp target qs
  | fuel + 1, qs =>
    let x := implied n kp target qs
    if lo ≤ x ∧ x ≤ hi then ⟨.solved, some qs, some (round4 x)⟩
    else
      match swapChoice cs kp qs x lo hi with
      | some p => loop cs n kp target lo hi fuel (applySwap qs p.1 p.2)
      | none => warnReport n kp target qs

/-- `solve_product_distribution`. -/
def solve (n tq : ℕ) (P tax : ℚ) (kp : List ℚ) (lo hi : ℚ)
    (cs : List Constraint) : Report :=
  if hasConflict cs = true then ⟨.conflictError, none, none⟩
  else if (tq : ℤ) < minSum cs then ⟨.infeasibleTotalError, none, none⟩
  else
    let qs := allocate n tq cs
    if qlast qs = 0 then ⟨.divisionByZeroError, none, none⟩
    else loop cs n kp (P / (1 + tax)) lo hi 200 qs

/-- Spec-side reading of the infeasibility test: the sum of the values of
*all* `Exact`/`AtLeast` bounds in the request. -/
def minSumSpec (cs : List Constraint) : ℤ :=
  ((cs.filter fun c => c.ctype = .ge ∨ c.ctype = .eq).map fun c => c.value).sum

/-- Spec-side reading of one scan: all donor/recipient index pairs in
lexicographic order, donors from `ds`, recipients from `rs`. -/
def lexPairs (ds rs : List (ℚ × ℕ)) : List (ℕ × ℕ) :=
  ds.flatMap fun d => rs.map fun r => (d.2, r.2)

/-- Spec-side validity of a donor/recipient pair: the donor cell is
positive, the indices differ, and `is_valid_swap` accepts. -/
def validPair (cs : List Constraint) (qs : List ℤ) (p : ℕ × ℕ) : Bool :=
  decide (0 < qget qs p.1) && decide (p.1 ≠ p.2) && isValidSwap cs qs p.1 p.2

/-! ## List helper lemmas -/

theorem sum_set_lt (qs : List ℤ) (i : ℕ) (v : ℤ) (h : i < qs.length) :
    (qs.set i v).sum = qs.sum - qs.getD i 0 + v := by
  induction qs generalizing i with
  | nil => simp at h
  | cons a t ih =>
    cases i with
    | zero =>
      simp only [List.set_cons_zero, List.sum_cons, List.getD_cons_zero]
      ring
    | succ j =>
      simp only [List.set_cons_succ, List.sum_cons, List.getD_cons_succ]
      rw [ih j (by simpa using h)]
      ring

theorem getD_set_ne (qs : List ℤ) (i j : ℕ) (v : ℤ) (h : i ≠ j) :
    (qs.set i v).getD j 0 = qs.getD j 0 := by
  rw [List.getD_eq_getElem?_getD, List.getD_eq_getElem?_getD,
    List.getElem?_set_ne h]

theorem getD_set_self (qs : List ℤ) (i : ℕ) (v : ℤ) (h : i < qs.length) :
    (qs.set i v).getD i 0 = v := by
  rw [List.getD_eq_getElem?_getD, List.getElem?_set_self h]
  rfl

/-! ## Claim theorems (concrete evaluations)

Batteries marks `Rat.add`, `Rat.mul`, `Rat.inv` and `Rat.sub` as
irreducible, which blocks `decide` on concrete rational arithmetic; they
are made semireducible locally so that the evaluations below reduce. -/

section ConcreteEvaluations

attribute [local semireducible] Rat.add Rat.mul Rat.inv Rat.sub Rat.ofScientific

set_option maxRecDepth 40000

/-- C2: the claim that every bounded category ends inside its merged
`[min, max]` window fails on the code.  With a single `AtMost 2` bound on
category 0 (window `[0, 2]`), `solve` returns a Warning whose quantity
vector gives that category 3 units: the relaxation's clamp/redistribute
rounds oscillate and the final redistribution pushes the category back
above its max. -/
theorem c2_bound_violation :
    (solve 2 10 1000 0 [100] 1 2 [con 1 .le 2]).status = .warning ∧
    (solve 2 10 1000 0 [100] 1 2 [con 1 .le 2]).counts = some [3, 7] ∧
    mergedWindow [con 1 .le 2] 0 = (0, some 2) ∧ ¬((3 : ℤ) ≤ 2) := by
  decide

/-- C3: conflict detection is order dependent, because the `rules`
dictionary keeps only the last bound per category.  `Exact 5` followed by
`AtLeast 6` on the same category is NOT reported as a conflict (the run
continues to a Warning), while the reverse order is. -/
theorem c3_conflict_order_dependent :
    (solve 2 10 500 0 [100] 1 200 [con 1 .eq 5, con 1 .ge 6]).status = .warning ∧
    (solve 2 10 500 0 [100] 1 200 [con 1 .ge 6, con 1 .eq 5]).status =
      .conflictError := by
  decide

/-- C9: a Solved result can contain a negative quantity.  The floor
division used when redistributing a negative `delta` drives the unknown
category to `-1`, which then survives to the returned vector. -/
theorem c9_negative_quantity :
    (solve 4 12 (23 / 2) 0 [1, 1, 1] 1 2 [con 1 .ge 12]).status = .solved ∧
    (solve 4 12 (23 / 2) 0 [1, 1, 1] 1 2 [con 1 .ge 12]).counts =
      some [12, 1, 0, -1] ∧
    ¬((0 : ℤ) ≤ -1) := by
  decide

/-- C4 counterexample: two `AtLeast` bounds on the same category.  The sum
of the minimum values of all `Exact`/`AtLeast` bounds is `8 + 6 = 14`,
which exceeds `total_quantity = 7`, yet `solve` does not fail with
`InfeasibleTotalError`: only the last bound per category feeds the
`min_sum` check, so it sees `6 ≤ 7` and the call even ends Solved. -/
theorem c4_counterexample :
    minSumSpec [con 1 .ge 8, con 1 .ge 6] = 14 ∧ (7 : ℤ) < 14 ∧
    (solve 2 7 10 0 [1] 1 10 [con 1 .ge 8, con 1 .ge 6]).status = .solved := by
  decide

/-- C5: when the two normalization checks pass but the initial allocation
leaves the unknown (last) category with zero units, `solve` returns
the division-by-zero error report, with no quantities and no price. -/
theorem c5_division_by_zero (n tq : ℕ) (P tax lo hi : ℚ) (kp : List ℚ)
    (cs : List Constraint)
    (hcf : hasConflict cs = false)
    (hms : ¬ (tq : ℤ) < minSum cs)
    (hz : qlast (allocate n tq cs) = 0) :
    solve n tq P tax kp lo hi cs = ⟨.divisionByZeroError, none, none⟩ := by
  simp [solve, hcf, hms, hz]

/-- Witness for C5: `AtLeast 9` on category 0 with `total_quantity = 9`
forces `[9, 0, 0]`, so the unknown category holds zero units. -/
theorem c5_division_by_zero_witness :
    solve 3 9 1 0 [1, 1] 1 2 [con 1 .ge 9] =
      ⟨.divisionByZeroError, none, none⟩ :=
  c5_division_by_zero 3 9 1 0 1 2 [1, 1] [con 1 .ge 9]
    (by decide) (by decide) (by decide)

/-! ## Structure preservation lemmas -/

theorem foldl_length_preserve {γ : Type} (f : List ℤ → γ → List ℤ)
    (l : List γ) (qs : List ℤ) (h : ∀ t a, (f t a).length = t.length) :
    (l.foldl f qs).length = qs.length := by
  induction l generalizing qs with
  | nil => rfl
  | cons a l ih => rw [List.foldl_cons, ih, h]

theorem length_clampOnce (cs : List Constraint) (qs : List ℤ) :
    (clampOnce cs qs).length = qs.length := by
  unfold clampOnce
  apply foldl_length_preserve
  intro t i
  cases lookupRule cs i with
  | none => rfl
  | some r =>
    obtain ⟨ri, rt, rv⟩ := r
    cases rt
    all_goals dsimp only
    · rw [List.length_set]
    · split
      · rw [List.length_set]
      · rfl
    · split
      · rw [List.length_set]
      · rfl

theorem length_distribute (n tq : ℕ) (cs : List Constraint) (qs : List ℤ) :
    (distribute n tq cs qs).length = qs.length := by
  simp only [distribute]
  split
  · rfl
  · rw [foldl_length_preserve _ _ _ (fun t a => List.length_set ..),
      foldl_length_preserve _ _ _ (fun t a => List.length_set ..)]

theorem length_relax (cs : List Constraint) (n tq : ℕ) (qs : List ℤ) :
    (relax cs n tq qs).length = qs.length := by
  unfold relax
  generalize 2 * n = k
  induction k generalizing qs with
  | zero => rfl
  | succ k ih =>
    rw [Function.iterate_succ_apply, ih]
    unfold roundStep
    rw [length_distribute, length_clampOnce]

theorem length_baseAlloc (n tq : ℕ) (hn : 0 < n) :
    (baseAlloc n tq).length = n := by
  have : tq % n < n := Nat.mod_lt _ hn
  simp [baseAlloc]
  omega

theorem length_allocate (n tq : ℕ) (cs : List Constraint) (hn : 0 < n) :
    (allocate n tq cs).length = n := by
  simp only [allocate]
  have hb := length_baseAlloc n tq hn
  have hr : (relax cs n tq (baseAlloc n tq)).length = n := by
    rw [length_relax]
    exact hb
  split
  all_goals split
  · exact hb
  · rw [List.length_set]
    exact hb
  · exact hr
  · rw [List.length_set]
    exact hr

theorem allocate_sum (n tq : ℕ) (cs : List Constraint) (hn : 0 < n) :
    (allocate n tq cs).sum = (tq : ℤ) := by
  simp only [allocate]
  have hb := length_baseAlloc n tq hn
  have hr : (relax cs n tq (baseAlloc n tq)).length = n := by
    rw [length_relax]
    exact hb
  split
  all_goals split
  · rename_i h
    exact h
  · rw [sum_set_lt _ 0 _ (by omega)]
    unfold qget
    ring
  · rename_i h
    exact h
  · rw [sum_set_lt _ 0 _ (by omega)]
    unfold qget
    ring

theorem applySwap_length (qs : List ℤ) (d r : ℕ) :
    (applySwap qs d r).length = qs.length := by
  simp [applySwap, List.length_set]

theorem applySwap_sum (qs : List ℤ) (d r : ℕ) (hd : d < qs.length)
    (hr : r < qs.length) (hne : d ≠ r) :
    (applySwap qs d r).sum = qs.sum := by
  unfold applySwap qget
  rw [sum_set_lt _ r _ (by rw [List.length_set]; exact hr),
    getD_set_ne _ _ _ _ hne, sum_set_lt _ d _ hd]
  ring

theorem applySwap_getD_ne (qs : List ℤ) (d r j : ℕ) (hjd : d ≠ j)
    (hjr : r ≠ j) : (applySwap qs d r).getD j 0 = qs.getD j 0 := by
  unfold applySwap
  rw [getD_set_ne _ _ _ _ hjr, getD_set_ne _ _ _ _ hjd]

/-! ## Pair-scan lemmas -/

theorem mem_insertPair (a c : ℚ × ℕ) (l : List (ℚ × ℕ)) :
    c ∈ insertPair a l ↔ c = a ∨ c ∈ l := by
  induction l with
  | nil => simp [insertPair]
  | cons b t ih =>
    unfold insertPair
    split
    · simp
    · simp only [List.mem_cons, ih]
      tauto

theorem mem_sortByPrice (c : ℚ × ℕ) (l : List (ℚ × ℕ)) :
    c ∈ sortByPrice l ↔ c ∈ l := by
  induction l with
  | nil => simp [sortByPrice]
  | cons a t ih =>
    unfold sortByPrice
    rw [mem_insertPair, ih]
    simp

theorem mem_pricedItems (p : ℚ × ℕ) (kp : List ℚ) (h : p ∈ pricedItems kp) :
    p.2 < kp.length := by
  unfold pricedItems at h
  rw [mem_sortByPrice] at h
  unfold indexPairs at h
  obtain ⟨i, hi, rfl⟩ := List.mem_map.mp h
  simpa using List.mem_range.mp hi

theorem innerScan_some (cs : List Constraint) (qs : List ℤ) (dI : ℕ)
    (rs : List (ℚ × ℕ)) (d r : ℕ)
    (h : (rs.findSome? fun r0 =>
        if dI ≠ r0.2 ∧ isValidSwap cs qs dI r0.2 = true then some (dI, r0.2)
        else none) = some (d, r)) :
    d = dI ∧ (∃ b, (b, r) ∈ rs) ∧ d ≠ r := by
  induction rs with
  | nil => simp [List.findSome?] at h
  | cons r0 tl ih =>
    rw [List.findSome?_cons] at h
    split at h
    · rename_i heq
      split at heq
      · rename_i hcond
        cases heq
        cases h
        exact ⟨rfl, ⟨r0.1, by simp⟩, hcond.1⟩
      · cases heq
    · rename_i heq
      obtain ⟨h1, ⟨b, hb⟩, h3⟩ := ih h
      exact ⟨h1, ⟨b, List.mem_cons_of_mem _ hb⟩, h3⟩

theorem scanPairs_some (cs : List Constraint) (qs : List ℤ)
    (ds rs : List (ℚ × ℕ)) (d r : ℕ)
    (h : scanPairs cs qs ds rs = some (d, r)) :
    (∃ a, (a, d) ∈ ds) ∧ (∃ b, (b, r) ∈ rs) ∧ d ≠ r := by
  induction ds with
  | nil => simp [scanPairs, List.findSome?] at h
  | cons d0 tl ih =>
    unfold scanPairs at h ih
    rw [List.findSome?_cons] at h
    split at h
    · rename_i heq
      split at heq
      · obtain ⟨h1, h2, h3⟩ := innerScan_some cs qs d0.2 rs d r (h ▸ heq)
        exact ⟨⟨d0.1, by rw [h1]; simp⟩, h2, h3⟩
      · cases heq
    · rename_i heq
      obtain ⟨⟨a, ha⟩, h2, h3⟩ := ih h
      exact ⟨⟨a, List.mem_cons_of_mem _ ha⟩, h2, h3⟩

theorem swapChoice_some (cs : List Constraint) (kp : List ℚ) (qs : List ℤ)
    (x lo hi : ℚ) (d r : ℕ)
    (h : swapChoice cs kp qs x lo hi = some (d, r)) :
    d < kp.length ∧ r < kp.length ∧ d ≠ r := by
  unfold swapChoice at h
  split at h
  · obtain ⟨⟨a, ha⟩, ⟨b, hb⟩, hne⟩ := scanPairs_some _ _ _ _ _ _ h
    exact ⟨mem_pricedItems _ _ ha, mem_pricedItems _ _ (List.mem_reverse.mp hb),
      hne⟩
  · split at h
    · obtain ⟨⟨a, ha⟩, ⟨b, hb⟩, hne⟩ := scanPairs_some _ _ _ _ _ _ h
      exact ⟨mem_pricedItems _ _ (List.mem_reverse.mp ha),
        mem_pricedItems _ _ hb, hne⟩
    · cases h

/-! ## Balancing-loop invariants -/

theorem loop_counts_inv (cs : List Constraint) (n : ℕ) (kp : List ℚ)
    (target lo hi : ℚ) (hkp : kp.length + 1 = n) :
    ∀ fuel qs q, (loop cs n kp target lo hi fuel qs).counts = some q →
      qs.length = n →
      q.sum = qs.sum ∧ q.length = qs.length ∧
        q.getD (n - 1) 0 = qs.getD (n - 1) 0 := by
  intro fuel
  induction fuel with
  | zero =>
    intro qs q h _
    unfold loop warnReport at h
    simp only [Option.some.injEq] at h
    subst h
    exact ⟨rfl, rfl, rfl⟩
  | succ fuel ih =>
    intro qs q h hlen
    rw [loop] at h
    split at h
    · simp only [Option.some.injEq] at h
      subst h
      exact ⟨rfl, rfl, rfl⟩
    · rename_i hx
      split at h
      · rename_i p hp
        have hb := swapChoice_some cs kp qs _ lo hi p.1 p.2 (by rw [hp])
        have hd : p.1 < qs.length := by omega
        have hr : p.2 < qs.length := by omega
        have hlen2 : (applySwap qs p.1 p.2).length = n := by
          rw [applySwap_length]; exact hlen
        obtain ⟨hsum, hl, hgd⟩ := ih (applySwap qs p.1 p.2) q h hlen2
        refine ⟨?_, ?_, ?_⟩
        · rw [hsum, applySwap_sum qs p.1 p.2 hd hr hb.2.2]
        · rw [hl, applySwap_length]
        · rw [hgd, applySwap_getD_ne qs p.1 p.2 (n - 1) (by omega) (by omega)]
      · unfold warnReport at h
        simp only [Option.some.injEq] at h
        subst h
        exact ⟨rfl, rfl, rfl⟩

theorem loop_counts_some (cs : List Constraint) (n : ℕ) (kp : List ℚ)
    (target lo hi : ℚ) :
    ∀ fuel qs, ∃ q, (loop cs n kp target lo hi fuel qs).counts = some q := by
  intro fuel
  induction fuel with
  | zero => intro qs; exact ⟨qs, rfl⟩
  | succ fuel ih =>
    intro qs
    rw [loop]
    split
    · exact ⟨qs, rfl⟩
    · split
      · exact ih _
      · exact ⟨qs, rfl⟩

theorem qlast_eq_getD (l : List ℤ) :
    qlast l = l.getD (l.length - 1) 0 := by
  unfold qlast
  rw [List.getLastD_eq_getLast?, List.getD_eq_getElem?_getD,
    List.getLast?_eq_getElem?]

/-! ## Claims C1 and C10 -/

/-- C1: whenever `solve` ends Solved or Warning, the returned quantity
vector sums to `total_quantity`.  The baseline plus the residual fix-up
establish the sum after stage one, and every accepted single-unit swap of
the balancing loop preserves it. -/
theorem c1_sum_invariant (n tq : ℕ) (P tax lo hi : ℚ) (kp : List ℚ)
    (cs : List Constraint) (hn : 0 < n) (hkp : kp.length + 1 = n)
    (hst : (solve n tq P tax kp lo hi cs).status = .solved ∨
      (solve n tq P tax kp lo hi cs).status = .warning) :
    ∃ q, (solve n tq P tax kp lo hi cs).counts = some q ∧
      q.sum = (tq : ℤ) := by
  simp only [solve] at hst ⊢
  split_ifs at hst ⊢ with h1 h2 h3
  · simp at hst
  · simp at hst
  · simp at hst
  · obtain ⟨q, hq⟩ := loop_counts_some cs n kp (P / (1 + tax)) lo hi 200
      (allocate n tq cs)
    refine ⟨q, hq, ?_⟩
    have h := loop_counts_inv cs n kp (P / (1 + tax)) lo hi hkp 200
      (allocate n tq cs) q hq (length_allocate n tq cs hn)
    rw [h.1, allocate_sum n tq cs hn]

/-- Witness for C1 at a concrete Solved instance. -/
theorem c1_sum_invariant_witness :
    ∃ q, (solve 2 4 4 0 [1] 0 10 []).counts = some q ∧ q.sum = (4 : ℤ) :=
  c1_sum_invariant 2 4 4 0 0 10 [1] [] (by decide) (by decide)
    (Or.inl (by decide))

/-- C10: the balancing loop never touches the unknown (last) category:
whenever `solve` returns a quantity vector at all, its last entry equals
the last entry of the initial allocation, and it is non-zero — which is
why the single zero check before the loop guards every later division. -/
theorem c10_unknown_frame (n tq : ℕ) (P tax lo hi : ℚ) (kp : List ℚ)
    (cs : List Constraint) (hn : 0 < n) (hkp : kp.length + 1 = n)
    (q : List ℤ) (hc : (solve n tq P tax kp lo hi cs).counts = some q) :
    q.getD (n - 1) 0 = (allocate n tq cs).getD (n - 1) 0 ∧
      q.getD (n - 1) 0 ≠ 0 := by
  simp only [solve] at hc
  split_ifs at hc with h1 h2 h3
  have hlen := length_allocate n tq cs hn
  have h := loop_counts_inv cs n kp (P / (1 + tax)) lo hi hkp 200
    (allocate n tq cs) q hc hlen
  refine ⟨h.2.2, ?_⟩
  rw [h.2.2]
  have hq := qlast_eq_getD (allocate n tq cs)
  rw [hlen] at hq
  rw [← hq]
  exact h3

/-- Witness for C10 at a concrete Solved instance. -/
theorem c10_unknown_frame_witness :
    ([2, 2] : List ℤ).getD (2 - 1) 0 = (allocate 2 4 []).getD (2 - 1) 0 ∧
      ([2, 2] : List ℤ).getD (2 - 1) 0 ≠ 0 :=
  c10_unknown_frame 2 4 4 0 0 10 [1] [] (by decide) (by decide) [2, 2]
    (by decide)

/-! ## Claims C6 and C8 -/

theorem loop_solved (cs : List Constraint) (n : ℕ) (kp : List ℚ)
    (target lo hi : ℚ) :
    ∀ fuel qs, (loop cs n kp target lo hi fuel qs).status = .solved →
      ∃ q, (loop cs n kp target lo hi fuel qs).counts = some q ∧
        lo ≤ implied n kp target q ∧ implied n kp target q ≤ hi := by
  intro fuel
  induction fuel with
  | zero =>
    intro qs h
    exact absurd h (by simp [loop, warnReport])
  | succ fuel ih =>
    intro qs h
    by_cases hx : lo ≤ implied n kp target qs ∧ implied n kp target qs ≤ hi
    · refine ⟨qs, ?_, hx.1, hx.2⟩
      simp only [loop]
      rw [if_pos hx]
    · simp only [loop] at h ⊢
      rw [if_neg hx] at h ⊢
      cases hsw : swapChoice cs kp qs (implied n kp target qs) lo hi with
      | some p =>
        rw [hsw] at h
        exact ih _ h
      | none =>
        rw [hsw] at h
        exact absurd h (by simp [warnReport])

theorem loop_warned (cs : List Constraint) (n : ℕ) (kp : List ℚ)
    (target lo hi : ℚ) :
    ∀ fuel qs, (loop cs n kp target lo hi fuel qs).status = .warning →
      ∃ q, loop cs n kp target lo hi fuel qs = warnReport n kp target q := by
  intro fuel
  induction fuel with
  | zero =>
    intro qs _
    exact ⟨qs, rfl⟩
  | succ fuel ih =>
    intro qs h
    by_cases hx : lo ≤ implied n kp target qs ∧ implied n kp target qs ≤ hi
    · refine absurd h ?_
      simp only [loop]
      rw [if_pos hx]
      simp
    · simp only [loop] at h ⊢
      rw [if_neg hx] at h ⊢
      cases hsw : swapChoice cs kp qs (implied n kp target qs) lo hi with
      | some p =>
        rw [hsw] at h
        exact ih _ h
      | none => exact ⟨qs, rfl⟩

/-- C6: whenever `solve` ends Solved, the implied unknown-category price of
the returned quantity vector — the pre-tax target minus the known-category
contribution, divided by the unknown category's quantity — lies inside the
closed price range `[lo, hi]`. -/
theorem c6_solved_in_range (n tq : ℕ) (P tax lo hi : ℚ) (kp : List ℚ)
    (cs : List Constraint)
    (hst : (solve n tq P tax kp lo hi cs).status = .solved) :
    ∃ q, (solve n tq P tax kp lo hi cs).counts = some q ∧
      lo ≤ implied n kp (P / (1 + tax)) q ∧
      implied n kp (P / (1 + tax)) q ≤ hi := by
  simp only [solve] at hst ⊢
  split_ifs at hst ⊢ with h1 h2 h3
  exact loop_solved cs n kp (P / (1 + tax)) lo hi 200 (allocate n tq cs) hst

/-- Witness for C6 at a concrete Solved instance. -/
theorem c6_solved_in_range_witness :
    ∃ q, (solve 2 4 4 0 [1] 0 10 []).counts = some q ∧
      0 ≤ implied 2 [1] (4 / (1 + 0)) q ∧ implied 2 [1] (4 / (1 + 0)) q ≤ 10 :=
  c6_solved_in_range 2 4 4 0 0 10 [1] [] (by decide)

/-- C8: the warning exits of the balancing search.  Exhausted fuel returns
the warning report; a stuck iteration (out-of-range price, no valid
donor/recipient pair) returns the warning report; the warning report
carries the current quantity vector and the freshly recomputed implied
price; and any Warning result of `solve` carries a quantity vector
together with the (rounded) implied price of that very vector. -/
theorem c8_warning_paths (cs : List Constraint) (n tq : ℕ)
    (P tax lo hi : ℚ) (kp : List ℚ) :
    (∀ qs, loop cs n kp (P / (1 + tax)) lo hi 0 qs =
      warnReport n kp (P / (1 + tax)) qs) ∧
    (∀ fuel qs,
      ¬(lo ≤ implied n kp (P / (1 + tax)) qs ∧
        implied n kp (P / (1 + tax)) qs ≤ hi) →
      swapChoice cs kp qs (implied n kp (P / (1 + tax)) qs) lo hi = none →
      loop cs n kp (P / (1 + tax)) lo hi (fuel + 1) qs =
        warnReport n kp (P / (1 + tax)) qs) ∧
    (∀ qs, (warnReport n kp (P / (1 + tax)) qs).status = .warning ∧
      (warnReport n kp (P / (1 + tax)) qs).counts = some qs ∧
      (warnReport n kp (P / (1 + tax)) qs).price =
        some (round4 (implied n kp (P / (1 + tax)) qs))) ∧
    ((solve n tq P tax kp lo hi cs).status = .warning →
      ∃ q, (solve n tq P tax kp lo hi cs).counts = some q ∧
        (solve n tq P tax kp lo hi cs).price =
          some (round4 (implied n kp (P / (1 + tax)) q))) := by
  refine ⟨fun qs => rfl, ?_, fun qs => ⟨rfl, rfl, rfl⟩, ?_⟩
  · intro fuel qs hx hsw
    simp only [loop]
    rw [if_neg hx, hsw]
  · intro hst
    simp only [solve] at hst ⊢
    split_ifs at hst ⊢ with h1 h2 h3
    obtain ⟨q, hq⟩ := loop_warned cs n kp (P / (1 + tax)) lo hi 200
      (allocate n tq cs) hst
    rw [hq]
    exact ⟨q, rfl, rfl⟩

/-- Witness for C8: the stuck iteration of the C2 scenario, where the
implied price 100 lies above the range `[1, 2]` and the single known
category cannot swap with itself. -/
theorem c8_warning_paths_witness :
    loop [con 1 .le 2] 2 [100] (1000 / (1 + 0)) 1 2 (199 + 1) [3, 7] =
      warnReport 2 [100] (1000 / (1 + 0)) [3, 7] :=
  (c8_warning_paths [con 1 .le 2] 2 10 1000 0 1 2 [100]).2.1 199 [3, 7]
    (by decide) (by decide)

/-! ## Claim C4 (amended): single bound per category -/

theorem firstDedupAux_eq_self (l : List ℕ) :
    ∀ seen, l.Nodup → (∀ a ∈ l, a ∉ seen) → firstDedupAux seen l = l := by
  induction l with
  | nil => intro seen _ _; rfl
  | cons a t ih =>
    intro seen h hs
    rw [List.nodup_cons] at h
    unfold firstDedupAux
    rw [if_neg (hs a (List.mem_cons_self a t))]
    congr 1
    refine ih (a :: seen) h.2 fun b hb => ?_
    simp only [List.mem_cons]
    push_neg
    exact ⟨fun hba => h.1 (hba ▸ hb), hs b (List.mem_cons_of_mem _ hb)⟩

theorem ruleKeys_nodup_eq (cs : List Constraint)
    (h : (cs.map ckey).Nodup) : ruleKeys cs = cs.map ckey := by
  unfold ruleKeys firstDedup
  exact firstDedupAux_eq_self _ [] h (by simp)

theorem lookupRule_acc_no_hit (l : List Constraint) (i : ℕ) :
    ∀ acc : Option Constraint, (∀ c ∈ l, ckey c ≠ i) →
      l.foldl (fun a c => if ckey c = i then some c else a) acc = acc := by
  induction l with
  | nil => intro acc _; rfl
  | cons c t ih =>
    intro acc h
    rw [List.foldl_cons, if_neg (h c (List.mem_cons_self c t))]
    exact ih acc fun b hb => h b (List.mem_cons_of_mem _ hb)

theorem lookupRule_of_nodup (cs : List Constraint) (c : Constraint)
    (h : (cs.map ckey).Nodup) (hc : c ∈ cs) :
    lookupRule cs (ckey c) = some c := by
  induction cs with
  | nil => cases hc
  | cons d t ih =>
    rw [List.map_cons, List.nodup_cons] at h
    unfold lookupRule
    rw [List.foldl_cons]
    rcases List.mem_cons.mp hc with rfl | hct
    · rw [if_pos rfl]
      exact lookupRule_acc_no_hit t (ckey c) (some c)
        fun b hb hbk => h.1 (hbk ▸ List.mem_map_of_mem ckey hb)
    · have hne : ckey d ≠ ckey c :=
        fun he => h.1 (he ▸ List.mem_map_of_mem ckey hct)
      rw [if_neg hne]
      exact ih h.2 hct

theorem filter_ckey_of_nodup (cs : List Constraint) (c : Constraint)
    (h : (cs.map ckey).Nodup) (hc : c ∈ cs) :
    (cs.filter fun e => ckey e = ckey c) = [c] := by
  induction cs with
  | nil => cases hc
  | cons d t ih =>
    rw [List.map_cons, List.nodup_cons] at h
    rw [List.filter_cons]
    rcases List.mem_cons.mp hc with rfl | hct
    · rw [if_pos (by simp)]
      congr 1
      rw [List.filter_eq_nil_iff]
      intro b hb
      simp only [decide_eq_true_eq]
      exact fun hbk => h.1 (hbk ▸ List.mem_map_of_mem ckey hb)
    · have hne : ckey d ≠ ckey c :=
        fun he => h.1 (he ▸ List.mem_map_of_mem ckey hct)
      rw [if_neg (by simpa using hne)]
      exact ih h.2 hct

theorem windowConflict_single (cs : List Constraint) (c : Constraint)
    (h : (cs.map ckey).Nodup) (hc : c ∈ cs) (hv : 0 ≤ c.value) :
    windowConflict cs (ckey c) = false := by
  unfold windowConflict mergedWindow
  rw [lookupRule_of_nodup cs c h hc, filter_ckey_of_nodup cs c h hc]
  obtain ⟨ci, ct, cv⟩ := c
  simp only at hv
  cases ct
  all_goals simp only [List.foldl_cons, List.foldl_nil]
  · simp [lt_irrefl]
  · simp [lt_irrefl]
  · simp [lt_irrefl, not_lt.mpr hv]

theorem hasConflict_of_nodup (cs : List Constraint)
    (h : (cs.map ckey).Nodup) (hv : ∀ c ∈ cs, 0 ≤ c.value) :
    hasConflict cs = false := by
  unfold hasConflict
  rw [List.any_eq_false]
  intro i hi
  rw [ruleKeys_nodup_eq cs h] at hi
  obtain ⟨c, hc, rfl⟩ := List.mem_map.mp hi
  rw [windowConflict_single cs c h hc (hv c hc)]
  simp

theorem minVal_map_sum (cs : List Constraint) :
    (cs.map fun c =>
      match c.ctype with
      | .ge => c.value
      | .eq => c.value
      | .le => 0).sum = minSumSpec cs := by
  induction cs with
  | nil => rfl
  | cons c t ih =>
    rw [List.map_cons, List.sum_cons, ih]
    unfold minSumSpec
    rw [List.filter_cons]
    obtain ⟨ci, ct, cv⟩ := c
    cases ct
    all_goals simp [minSumSpec]

theorem minSum_of_nodup (cs : List Constraint)
    (h : (cs.map ckey).Nodup) : minSum cs = minSumSpec cs := by
  unfold minSum
  rw [ruleKeys_nodup_eq cs h, List.map_map]
  have hmap : cs.map ((fun i =>
      match lookupRule cs i with
      | some r =>
        match r.ctype with
        | .ge => r.value
        | .eq => r.value
        | .le => 0
      | none => 0) ∘ ckey) = cs.map fun c =>
        match c.ctype with
        | .ge => c.value
        | .eq => c.value
        | .le => 0 := by
    refine List.map_congr_left fun c hc => ?_
    simp only [Function.comp]
    rw [lookupRule_of_nodup cs c h hc]
  rw [hmap]
  exact minVal_map_sum cs

/-- C4 (amended): when every category carries at most one bound and the
bound values are non-negative, a total of `Exact`/`AtLeast` bound values
exceeding `total_quantity` makes `solve` fail with the infeasible-total
error. -/
theorem c4_infeasible_total (n tq : ℕ) (P tax lo hi : ℚ) (kp : List ℚ)
    (cs : List Constraint)
    (hnd : (cs.map ckey).Nodup)
    (hval : ∀ c ∈ cs, 0 ≤ c.value)
    (hlt : (tq : ℤ) < minSumSpec cs) :
    (solve n tq P tax kp lo hi cs).status = .infeasibleTotalError := by
  simp only [solve]
  rw [hasConflict_of_nodup cs hnd hval]
  rw [if_neg (by simp), minSum_of_nodup cs hnd, if_pos hlt]

/-- Witness for C4: the spec's own example, `AtLeast 6` on two distinct
categories with `total_quantity = 10` (required minimum 12). -/
theorem c4_infeasible_total_witness :
    (solve 3 10 1 0 [1, 1] 1 2 [con 1 .ge 6, con 2 .ge 6]).status =
      .infeasibleTotalError :=
  c4_infeasible_total 3 10 1 0 1 2 [1, 1] [con 1 .ge 6, con 2 .ge 6]
    (by decide) (by decide) (by decide)

/-! ## Claim C7: the donor/recipient scan -/

theorem innerScan_eq_find (cs : List Constraint) (qs : List ℤ) (dI : ℕ)
    (rs : List (ℚ × ℕ)) (hd : 0 < qget qs dI) :
    (rs.findSome? fun r0 =>
      if dI ≠ r0.2 ∧ isValidSwap cs qs dI r0.2 = true then some (dI, r0.2)
      else none) =
    (rs.map fun r0 => (dI, r0.2)).find? (validPair cs qs) := by
  induction rs with
  | nil => rfl
  | cons r0 tl ih =>
    rw [List.findSome?_cons, List.map_cons, List.find?_cons]
    by_cases hc : dI ≠ r0.2 ∧ isValidSwap cs qs dI r0.2 = true
    · have hv : validPair cs qs (dI, r0.2) = true := by
        unfold validPair
        simp [hd, hc.1, hc.2]
      rw [if_pos hc, hv]
    · have hv : validPair cs qs (dI, r0.2) = false := by
        unfold validPair
        by_cases h1 : dI = r0.2
        · simp [h1]
        · have h2 : isValidSwap cs qs dI r0.2 = false := by
            cases hiv : isValidSwap cs qs dI r0.2
            · rfl
            · exact absurd ⟨h1, hiv⟩ hc
          simp [h2]
      rw [if_neg hc, hv]
      exact ih

theorem scanPairs_eq_find (cs : List Constraint) (qs : List ℤ)
    (ds rs : List (ℚ × ℕ)) :
    scanPairs cs qs ds rs = (lexPairs ds rs).find? (validPair cs qs) := by
  induction ds with
  | nil => rfl
  | cons d tl ih =>
    unfold scanPairs at ih ⊢
    unfold lexPairs at ih ⊢
    rw [List.findSome?_cons, List.flatMap_cons, List.find?_append]
    by_cases hd : 0 < qget qs d.2
    · rw [if_pos hd, innerScan_eq_find cs qs d.2 rs hd]
      cases hfind : (rs.map fun r0 => (d.2, r0.2)).find? (validPair cs qs) with
      | some p => rfl
      | none => exact ih
    · rw [if_neg hd]
      have hnone : (rs.map fun r0 => (d.2, r0.2)).find? (validPair cs qs) =
          none := by
        rw [List.find?_eq_none]
        intro p hp
        obtain ⟨r0, hr0, rfl⟩ := List.mem_map.mp hp
        unfold validPair
        simp [hd]
      rw [hnone]
      exact ih

theorem pairwise_insertPair (a : ℚ × ℕ) (l : List (ℚ × ℕ))
    (h : l.Pairwise fun x y => x.1 ≤ y.1) :
    (insertPair a l).Pairwise fun x y => x.1 ≤ y.1 := by
  induction l with
  | nil => simp [insertPair]
  | cons b t ih =>
    rw [List.pairwise_cons] at h
    unfold insertPair
    split
    · rename_i hab
      rw [List.pairwise_cons]
      refine ⟨fun c hc => ?_, List.pairwise_cons.mpr h⟩
      rcases List.mem_cons.mp hc with rfl | hct
      · exact hab
      · exact le_trans hab (h.1 c hct)
    · rename_i hab
      rw [List.pairwise_cons]
      refine ⟨fun c hc => ?_, ih h.2⟩
      rcases (mem_insertPair a c t).mp hc with rfl | hct
      · exact le_of_not_le hab
      · exact h.1 c hct

theorem sortByPrice_pairwise (l : List (ℚ × ℕ)) :
    (sortByPrice l).Pairwise fun x y => x.1 ≤ y.1 := by
  induction l with
  | nil => simp [sortByPrice]
  | cons a t ih => exact pairwise_insertPair a _ ih

theorem applySwap_getD_fst (qs : List ℤ) (d r : ℕ) (hd : d < qs.length)
    (hne : d ≠ r) : (applySwap qs d r).getD d 0 = qs.getD d 0 - 1 := by
  unfold applySwap qget
  rw [getD_set_ne _ _ _ _ (Ne.symm hne), getD_set_self _ _ _ hd]

theorem applySwap_getD_snd (qs : List ℤ) (d r : ℕ) (hr : r < qs.length)
    (hne : d ≠ r) : (applySwap qs d r).getD r 0 = qs.getD r 0 + 1 := by
  unfold applySwap qget
  rw [getD_set_self _ _ _ (by rw [List.length_set]; exact hr),
    getD_set_ne _ _ _ _ hne]

/-- C7: the swap of a balancing iteration.  `priced_items` is ascending by
price; above the range the applied pair is the first valid one in the
lexicographic scan over ascending-price donors and descending-price
(reversed-list) recipients; below the range (for a genuine `lo ≤ hi`
range) the mirror scan is used; and an accepted pair moves exactly one
unit from one known category to a different known category, leaving every
other cell unchanged. -/
theorem c7_swap_selection (cs : List Constraint) (kp : List ℚ)
    (qs : List ℤ) (x lo hi : ℚ) :
    (pricedItems kp).Pairwise (fun a b => a.1 ≤ b.1) ∧
    (hi < x → swapChoice cs kp qs x lo hi =
      (lexPairs (pricedItems kp) (pricedItems kp).reverse).find?
        (validPair cs qs)) ∧
    (lo ≤ hi → x < lo → swapChoice cs kp qs x lo hi =
      (lexPairs (pricedItems kp).reverse (pricedItems kp)).find?
        (validPair cs qs)) ∧
    (∀ d r, swapChoice cs kp qs x lo hi = some (d, r) →
      d ≠ r ∧ d < kp.length ∧ r < kp.length ∧
      (kp.length < qs.length →
        (applySwap qs d r).getD d 0 = qs.getD d 0 - 1 ∧
        (applySwap qs d r).getD r 0 = qs.getD r 0 + 1 ∧
        (∀ j, j ≠ d → j ≠ r → (applySwap qs d r).getD j 0 = qs.getD j 0) ∧
        (applySwap qs d r).sum = qs.sum)) := by
  refine ⟨sortByPrice_pairwise (indexPairs kp), ?_, ?_, ?_⟩
  · intro hx
    unfold swapChoice
    rw [if_pos hx]
    exact scanPairs_eq_find cs qs _ _
  · intro hlh hx
    unfold swapChoice
    rw [if_neg (not_lt.mpr (le_of_lt (lt_of_lt_of_le hx hlh))), if_pos hx]
    exact scanPairs_eq_find cs qs _ _
  · intro d r h
    have hb := swapChoice_some cs kp qs x lo hi d r h
    refine ⟨hb.2.2, hb.1, hb.2.1, fun hlen => ?_⟩
    have hd : d < qs.length := by omega
    have hr : r < qs.length := by omega
    exact ⟨applySwap_getD_fst qs d r hd hb.2.2,
      applySwap_getD_snd qs d r hr hb.2.2,
      fun j hjd hjr => applySwap_getD_ne qs d r j (Ne.symm hjd) (Ne.symm hjr),
      applySwap_sum qs d r hd hr hb.2.2⟩

/-- Witness for C7 at a concrete above-range state. -/
theorem c7_swap_selection_witness :
    (1 : ℚ) < 5 ∧
    swapChoice [] [1, 2] [1, 1, 1] 5 0 1 =
      (lexPairs (pricedItems [1, 2]) (pricedItems [1, 2]).reverse).find?
        (validPair [] [1, 1, 1]) :=
  ⟨by decide, (c7_swap_selection [] [1, 2] [1, 1, 1] 5 0 1).2.1 (by decide)⟩

end ConcreteEvaluations

end MomCalc
